import Mathlib

/-!
Verification of the golf-stats scoring engine.

This file gives a shallow embedding of the scoring and standings code of the
repository (`app/golf_calc.py`, `app/crud.py`, the card-save handler in
`app/main.py`) and proves or refutes the specified properties.

Conventions of the embedding:
- Python `int` becomes `Int` (or `Nat` where the source value is a count);
- Python `float` becomes `Rat`, i.e. floating-point arithmetic is modelled
  exactly (all concrete values appearing in the claims are exactly
  representable, and the one rounding counterexample below uses inputs on
  which the float computation is exact);
- Python `None` becomes `Option.none`;
- a Python `dict` built by comprehension and then updated key-by-key becomes
  an association list `List (Nat × _)` in insertion order;
- Python `sorted` (a stable sort) becomes `List.insertionSort`, which is
  also stable;
- a Python function that can raise becomes an `Except`-valued function.
-/

namespace GolfStats

/-! ## Data model (`app/models.py`) -/

/-- A hole of a course: `number` (1..18), `par` (3/4/5), `stroke_index`
(difficulty rank 1..18, 1 = hardest).  From `models.Hole`. -/
structure Hole where
  number : Nat
  par : Int
  stroke_index : Nat
deriving DecidableEq

/-! ## `app/golf_calc.py` -/

/-- Python's built-in `round` on the exact value of a float: nearest integer,
ties to even (banker's rounding). -/
def pyRound (q : ℚ) : ℤ :=
  if q - ⌊q⌋ < 1/2 then ⌊q⌋
  else if 1/2 < q - ⌊q⌋ then ⌊q⌋ + 1
  else if Even ⌊q⌋ then ⌊q⌋ else ⌊q⌋ + 1

/-- `course_handicap(hcp_exact, slope) = int(round(hcp_exact * (slope / 113.0)))`
(`golf_calc.py` lines 1-3).  The outer `int(...)` is the identity on the
already-integral value returned by `round`. -/
def course_handicap (hcp_exact : ℚ) (slope : ℤ) : ℤ :=
  pyRound (hcp_exact * ((slope : ℚ) / 113))

/-- Rounding half-up, the rule the spec ascribes to `courseHandicap`:
nearest integer with ties rounded up. -/
def roundHalfUp (q : ℚ) : ℤ := ⌊q + 1/2⌋

/-- `stableford_points(net_strokes, par)` (`golf_calc.py` lines 21-29):
`diff = net_strokes - par`; `diff ≥ 2 → 0`, `1 → 1`, `0 → 2`, `-1 → 3`,
`-2 → 4`, `-3 → 5`, otherwise (`diff ≤ -4`) `6`. -/
def stableford_points (net_strokes par : ℤ) : ℤ :=
  let diff := net_strokes - par
  if diff ≥ 2 then 0
  else if diff = 1 then 1
  else if diff = 0 then 2
  else if diff = -1 then 3
  else if diff = -2 then 4
  else if diff = -3 then 5
  else 6

/-- One `received[k] += 1` step on the association-list image of the Python
dict `received` (every entry whose key is `k` is incremented; keys are unique
in the dict image, so this is the dict update). -/
def bump (l : List (Nat × Nat)) (k : Nat) : List (Nat × Nat) :=
  l.map (fun p => if p.1 = k then (p.1, p.2 + 1) else p)

/-- Comparison used by `sorted(holes, key=lambda h: h.stroke_index)`. -/
def holeIdxLE (a b : Hole) : Prop := a.stroke_index ≤ b.stroke_index

instance : DecidableRel holeIdxLE := fun a b => Nat.decLe _ _

instance : IsTotal Hole holeIdxLE := ⟨fun a b => Nat.le_total a.stroke_index b.stroke_index⟩

instance : IsTrans Hole holeIdxLE := ⟨fun _ _ _ h h' => Nat.le_trans h h'⟩

/-- `strokes_received_per_hole(ch, holes)` (`golf_calc.py` lines 5-19):
`base = ch // 18`, `extra = ch % 18`; the dict `{h.number: base for h in holes}`
is then incremented at the numbers of the first `extra` holes in ascending
`stroke_index` order.  The resulting dict is the returned association list. -/
def strokes_received_per_hole (ch : Nat) (holes : List Hole) : List (Nat × Nat) :=
  let base := ch / 18
  let extra := ch % 18
  let ordered := List.insertionSort holeIdxLE holes
  let received := holes.map (fun h => (h.number, base))
  (ordered.take extra).foldl (fun acc h => bump acc h.number) received

/-- Value stored under key `k` in the association-list image of a dict
(the sum of the values at `k`; a single dict holds each key once, so on
images of dicts this is the dict lookup, and it is `0` off the key set). -/
def valueAt (l : List (Nat × Nat)) (k : Nat) : Nat :=
  ((l.filter (fun p => p.1 = k)).map Prod.snd).sum

/-- Sum of all values of the dict image, i.e. `sum(received.values())`. -/
def valuesSum (l : List (Nat × Nat)) : Nat :=
  (l.map Prod.snd).sum

/-! ## Facts about `pyRound` -/

theorem pyRound_abs_le_half (x : ℚ) : |x - pyRound x| ≤ 1/2 := by
  have h0 : (⌊x⌋ : ℚ) ≤ x := Int.floor_le x
  have h1 : x < ⌊x⌋ + 1 := Int.lt_floor_add_one x
  unfold pyRound
  split_ifs with hlt hgt hev <;> rw [abs_le] <;> push_cast <;> constructor <;> linarith

theorem pyRound_tie_even (x : ℚ) (h : x - ⌊x⌋ = 1/2) : Even (pyRound x) := by
  unfold pyRound
  split_ifs with hlt hgt hev
  · exact absurd h (by intro hh; rw [hh] at hlt; exact absurd hlt (by norm_num))
  · exact absurd h (by intro hh; rw [hh] at hgt; exact absurd hgt (by norm_num))
  · exact hev
  · rcases Int.even_or_odd ⌊x⌋ with he | ho
    · exact absurd he hev
    · exact ho.add_one

theorem pyRound_nearest (x : ℚ) (z : ℤ) : |x - pyRound x| ≤ |x - z| := by
  by_cases hz : z = pyRound x
  · rw [hz]
  · have h1 : (1 : ℚ) ≤ |(z : ℚ) - pyRound x| := by
      have h : (1 : ℤ) ≤ |z - pyRound x| := Int.one_le_abs (sub_ne_zero.mpr hz)
      exact_mod_cast h
    have h2 := pyRound_abs_le_half x
    have h3 : |(z : ℚ) - pyRound x| ≤ |x - z| + |x - pyRound x| := by
      calc |(z : ℚ) - pyRound x| = |(z - x) + (x - pyRound x)| := by ring_nf
        _ ≤ |(z : ℚ) - x| + |x - pyRound x| := abs_add _ _
        _ = |x - z| + |x - pyRound x| := by rw [abs_sub_comm]
    linarith

/-! ## Claim C5: course handicap rounding -/

/-- C5 counterexample: the claim says `courseHandicap` rounds half-up, but
Python's `round` rounds ties to even: for exact index `14.5` and slope `113`
(where the float computation is exact) the code yields `14`, while rounding
`14.5 * 113 / 113 = 14.5` half-up yields `15`. -/
theorem course_handicap_not_half_up :
    course_handicap (29/2) 113 = 14 ∧ roundHalfUp ((29/2 : ℚ) * 113 / 113) = 15 := by
  constructor
  · show pyRound ((29/2 : ℚ) * ((113 : ℚ) / 113)) = 14
    norm_num [pyRound, Int.floor_eq_iff]
    decide
  · show ⌊(29/2 : ℚ) * 113 / 113 + 1/2⌋ = 15
    norm_num [Int.floor_eq_iff]

/-- C5 amended: `course_handicap(exactIndex, slope)` equals
`exactIndex * slope / 113` rounded to the nearest integer with ties rounded
half-to-even (Python `round`), and for exact index `14.3` and slope `120`
the course handicap is `15`. -/
theorem course_handicap_nearest_ties_even :
    (∀ (q : ℚ) (s : ℤ) (z : ℤ),
      |q * s / 113 - (course_handicap q s : ℚ)| ≤ |q * s / 113 - (z : ℚ)|) ∧
    (∀ (q : ℚ) (s : ℤ),
      q * s / 113 - ⌊q * s / 113⌋ = 1/2 → Even (course_handicap q s)) ∧
    course_handicap (143/10) 120 = 15 := by
  have key : ∀ (q : ℚ) (s : ℤ), course_handicap q s = pyRound (q * s / 113) := by
    intro q s
    unfold course_handicap
    rw [mul_div_assoc]
  refine ⟨?_, ?_, ?_⟩
  · intro q s z
    rw [key]
    exact pyRound_nearest _ z
  · intro q s h
    rw [key]
    exact pyRound_tie_even _ h
  · show pyRound ((143/10 : ℚ) * ((120 : ℚ) / 113)) = 15
    norm_num [pyRound, Int.floor_eq_iff]

/-- C5 witness: at exact index `14.5` and slope `113` the tie hypothesis
holds and the theorem yields an even course handicap. -/
theorem course_handicap_nearest_ties_even_witness :
    Even (course_handicap (29/2) 113) :=
  course_handicap_nearest_ties_even.2.1 (29/2) 113 (by norm_num [Int.floor_eq_iff])

/-! ## Claim C1: the Stableford table -/

/-- C1 counterexample: the claim's table says `diff = 0 → 3` points, but the
code awards `2` points at net par (`stableford_points(4, 4) = 2 ≠ 3`). -/
theorem stableford_points_at_par_ne_three : stableford_points 4 4 ≠ 3 := by decide

/-- C1 amended: `stableford_points(s, p)` with `diff = s - p` follows the
standard Stableford table shifted one from the claim's: `diff ≥ 2 → 0`,
`1 → 1`, `0 → 2`, `-1 → 3`, `-2 → 4`, `-3 → 5`, `diff ≤ -4 → 6`; it
saturates at `0` for `diff ≥ 2` and at `6` for `diff ≤ -4`, and is
monotonically non-increasing in `diff`. -/
theorem stableford_points_table :
    (∀ s p : ℤ, 2 ≤ s - p → stableford_points s p = 0) ∧
    (∀ s p : ℤ, s - p = 1 → stableford_points s p = 1) ∧
    (∀ s p : ℤ, s - p = 0 → stableford_points s p = 2) ∧
    (∀ s p : ℤ, s - p = -1 → stableford_points s p = 3) ∧
    (∀ s p : ℤ, s - p = -2 → stableford_points s p = 4) ∧
    (∀ s p : ℤ, s - p = -3 → stableford_points s p = 5) ∧
    (∀ s p : ℤ, s - p ≤ -4 → stableford_points s p = 6) ∧
    (∀ s t p : ℤ, s ≤ t → stableford_points t p ≤ stableford_points s p) := by
  refine ⟨?_, ?_, ?_, ?_, ?_, ?_, ?_, ?_⟩ <;>
    · intro s p h
      simp only [stableford_points]
      split_ifs <;> omega

/-- C1 witness: the amended table applied at concrete inputs. -/
theorem stableford_points_table_witness :
    stableford_points 6 4 = 0 ∧ stableford_points 1 5 = 6 ∧
    stableford_points 7 4 ≤ stableford_points 3 4 :=
  ⟨stableford_points_table.1 6 4 (by decide),
   stableford_points_table.2.2.2.2.2.2.1 1 5 (by decide),
   stableford_points_table.2.2.2.2.2.2.2 3 7 4 (by decide)⟩

/-! ## Claim C2: stroke allowance distribution

Auxiliary lemmas about `bump`, the fold over the first `extra` holes, and the
sorted order of a stroke-index permutation. -/

theorem bump_map_fst (l : List (Nat × Nat)) (k : Nat) :
    (bump l k).map Prod.fst = l.map Prod.fst := by
  induction l with
  | nil => rfl
  | cons p t ih =>
    by_cases h : p.1 = k <;> simp [bump, h] at * <;> exact ih

theorem valuesSum_bump (l : List (Nat × Nat)) (k : Nat) :
    valuesSum (bump l k) = valuesSum l + (l.map Prod.fst).count k := by
  induction l with
  | nil => rfl
  | cons p t ih =>
    by_cases h : p.1 = k <;>
      simp [bump, valuesSum, List.count_cons, h] at * <;> omega

theorem valueAt_cons (p : Nat × Nat) (t : List (Nat × Nat)) (k : Nat) :
    valueAt (p :: t) k = (if p.1 = k then p.2 else 0) + valueAt t k := by
  by_cases h : p.1 = k <;> simp [valueAt, h]

theorem valueAt_bump (l : List (Nat × Nat)) (k k' : Nat) :
    valueAt (bump l k) k'
      = valueAt l k' + (if k' = k then (l.map Prod.fst).count k' else 0) := by
  induction l with
  | nil => simp [bump, valueAt]
  | cons p t ih =>
    have hb : bump (p :: t) k
        = (if p.1 = k then (p.1, p.2 + 1) else p) :: bump t k := by
      simp [bump]
    rw [hb, valueAt_cons, valueAt_cons, ih, List.map_cons, List.count_cons]
    by_cases h1 : p.1 = k <;> by_cases h2 : p.1 = k' <;> by_cases h3 : k' = k <;>
      simp [h1, h2, h3] <;> first | omega | (split_ifs <;> omega)

theorem foldl_bump_map_fst (ts : List Hole) (l : List (Nat × Nat)) :
    ((ts.foldl (fun acc h => bump acc h.number) l).map Prod.fst) = l.map Prod.fst := by
  induction ts generalizing l with
  | nil => rfl
  | cons h t ih =>
    simp only [List.foldl_cons]
    rw [ih, bump_map_fst]

theorem foldl_bump_valuesSum (ts : List Hole) (l : List (Nat × Nat)) :
    valuesSum (ts.foldl (fun acc h => bump acc h.number) l)
      = valuesSum l
        + ((ts.map Hole.number).map fun k => (l.map Prod.fst).count k).sum := by
  induction ts generalizing l with
  | nil => simp
  | cons h t ih =>
    simp only [List.foldl_cons, List.map_cons, List.sum_cons]
    rw [ih, valuesSum_bump, bump_map_fst]
    omega

theorem foldl_bump_valueAt (ts : List Hole) (l : List (Nat × Nat)) (k : Nat) :
    valueAt (ts.foldl (fun acc h => bump acc h.number) l) k
      = valueAt l k + (ts.map Hole.number).count k * (l.map Prod.fst).count k := by
  induction ts generalizing l with
  | nil => simp
  | cons h t ih =>
    simp only [List.foldl_cons, List.map_cons, List.count_cons]
    rw [ih, valueAt_bump, bump_map_fst]
    by_cases hk : k = h.number
    · simp [hk]
      ring
    · have : ¬(h.number = k) := fun hh => hk hh.symm
      simp [hk, this]

theorem init_map_fst (holes : List Hole) (base : Nat) :
    ((holes.map fun h => (h.number, base)).map Prod.fst) = holes.map Hole.number := by
  rw [List.map_map]
  rfl

theorem valuesSum_init (holes : List Hole) (base : Nat) :
    valuesSum (holes.map fun h => (h.number, base)) = holes.length * base := by
  induction holes with
  | nil => simp [valuesSum]
  | cons h t ih =>
    simp only [List.map_cons, valuesSum, List.sum_cons] at *
    rw [ih, List.length_cons]
    ring

theorem valueAt_init (holes : List Hole) (base : Nat) (k : Nat) :
    valueAt (holes.map fun h => (h.number, base)) k
      = (holes.map Hole.number).count k * base := by
  induction holes with
  | nil => simp [valueAt]
  | cons h t ih =>
    rw [List.map_cons, valueAt_cons, ih, List.map_cons, List.count_cons]
    by_cases hk : h.number = k
    · subst hk
      simp
      ring
    · have hk' : ¬(k = h.number) := fun hh => hk hh.symm
      simp [hk, hk']

theorem sum_map_ones {α : Type} (l : List α) (f : α → Nat)
    (h : ∀ x ∈ l, f x = 1) : (l.map f).sum = l.length := by
  induction l with
  | nil => rfl
  | cons a t ih =>
    simp only [List.map_cons, List.sum_cons, List.length_cons]
    rw [h a (List.mem_cons_self a t), ih fun x hx => h x (List.mem_cons_of_mem a hx)]
    omega

/-- Sorting a hole list whose stroke indexes are a permutation of `1..18`
lines the stroke indexes up as exactly `1, 2, ..., 18`. -/
theorem sorted_idx_eq_range (holes : List Hole)
    (hperm : List.Perm (holes.map Hole.stroke_index) (List.range' 1 18)) :
    (List.insertionSort holeIdxLE holes).map Hole.stroke_index = List.range' 1 18 := by
  apply List.eq_of_perm_of_sorted
    (r := fun a b : ℕ => a ≤ b)
  · exact ((List.perm_insertionSort holeIdxLE holes).map Hole.stroke_index).trans hperm
  · exact (List.sorted_insertionSort holeIdxLE holes).map Hole.stroke_index
      (fun _ _ hab => hab)
  · exact List.pairwise_le_range' 1 18

theorem take_sorted_idx (holes : List Hole) (extra : Nat) (hextra : extra ≤ 18)
    (hperm : List.Perm (holes.map Hole.stroke_index) (List.range' 1 18)) :
    ((List.insertionSort holeIdxLE holes).take extra).map Hole.stroke_index
      = List.range' 1 extra := by
  rw [List.map_take, sorted_idx_eq_range holes hperm]
  have happ : List.range' 1 extra ++ List.range' (1 + extra) (18 - extra)
      = List.range' 1 18 := by
    rw [List.range'_append_1]
    congr 1
    omega
  rw [← happ, List.take_left']
  simp

theorem drop_sorted_idx (holes : List Hole) (extra : Nat) (hextra : extra ≤ 18)
    (hperm : List.Perm (holes.map Hole.stroke_index) (List.range' 1 18)) :
    ((List.insertionSort holeIdxLE holes).drop extra).map Hole.stroke_index
      = List.range' (1 + extra) (18 - extra) := by
  rw [List.map_drop, sorted_idx_eq_range holes hperm]
  have happ : List.range' 1 extra ++ List.range' (1 + extra) (18 - extra)
      = List.range' 1 18 := by
    rw [List.range'_append_1]
    congr 1
    omega
  rw [← happ, List.drop_left']
  simp

/-- A hole is among the first `extra` of the sorted order iff its stroke
index is at most `extra`. -/
theorem mem_take_sorted_iff (holes : List Hole) (extra : Nat) (hextra : extra ≤ 18)
    (hperm : List.Perm (holes.map Hole.stroke_index) (List.range' 1 18))
    (h : Hole) (hh : h ∈ holes) :
    h ∈ (List.insertionSort holeIdxLE holes).take extra ↔ h.stroke_index ≤ extra := by
  constructor
  · intro hmem
    have : h.stroke_index ∈ ((List.insertionSort holeIdxLE holes).take extra).map Hole.stroke_index :=
      List.mem_map_of_mem _ hmem
    rw [take_sorted_idx holes extra hextra hperm] at this
    rw [List.mem_range'] at this
    obtain ⟨i, hi, hieq⟩ := this
    omega
  · intro hle
    have hmem : h ∈ List.insertionSort holeIdxLE holes :=
      (List.perm_insertionSort holeIdxLE holes).symm.subset hh
    rw [← List.take_append_drop extra (List.insertionSort holeIdxLE holes),
      List.mem_append] at hmem
    rcases hmem with hmem | hmem
    · exact hmem
    · exfalso
      have : h.stroke_index ∈ ((List.insertionSort holeIdxLE holes).drop extra).map Hole.stroke_index :=
        List.mem_map_of_mem _ hmem
      rw [drop_sorted_idx holes extra hextra hperm] at this
      rw [List.mem_range'] at this
      obtain ⟨i, hi, hieq⟩ := this
      omega

/-- C2: for a course handicap `ch ≥ 0` and 18 holes with distinct numbers
whose stroke indexes are a permutation of `1..18`,
`strokes_received_per_hole` gives every hole `ch / 18` strokes plus one more
exactly on the holes with stroke index at most `ch % 18` (the `ch mod 18`
hardest holes), and the values sum to exactly `ch`. -/
theorem strokes_received_correct (ch : Nat) (holes : List Hole)
    (hlen : holes.length = 18)
    (hperm : List.Perm (holes.map Hole.stroke_index) (List.range' 1 18))
    (hnum : (holes.map Hole.number).Nodup) :
    (∀ h ∈ holes,
      valueAt (strokes_received_per_hole ch holes) h.number
        = ch / 18 + (if h.stroke_index ≤ ch % 18 then 1 else 0)) ∧
    valuesSum (strokes_received_per_hole ch holes) = ch := by
  have hextra : ch % 18 ≤ 18 := Nat.le_of_lt (Nat.mod_lt ch (by omega))
  set base := ch / 18 with hbase
  set extra := ch % 18 with hex
  set ordered := List.insertionSort holeIdxLE holes with hord
  set ts := ordered.take extra with hts
  set init := holes.map (fun h => (h.number, base)) with hinit
  have hunfold : strokes_received_per_hole ch holes
      = ts.foldl (fun acc h => bump acc h.number) init := rfl
  have hts_sub : ∀ h ∈ ts, h ∈ holes := by
    intro h hh
    exact (List.perm_insertionSort holeIdxLE holes).subset (List.mem_of_mem_take hh)
  have hts_len : ts.length = extra := by
    rw [hts, List.length_take, List.length_insertionSort, hlen]
    omega
  have hts_num_nodup : (ts.map Hole.number).Nodup := by
    have h1 : (ordered.map Hole.number).Nodup :=
      ((List.perm_insertionSort holeIdxLE holes).map Hole.number).nodup_iff.mpr hnum
    have h2 : (ts.map Hole.number).Sublist (ordered.map Hole.number) :=
      (List.take_sublist extra ordered).map Hole.number
    exact h1.sublist h2
  constructor
  · intro h hh
    rw [hunfold, foldl_bump_valueAt, valueAt_init, init_map_fst]
    have hcount1 : (holes.map Hole.number).count h.number = 1 :=
      List.count_eq_one_of_mem hnum (List.mem_map_of_mem Hole.number hh)
    rw [hcount1]
    have hts_count : (ts.map Hole.number).count h.number
        = if h ∈ ts then 1 else 0 := by
      split_ifs with hmem
      · exact List.count_eq_one_of_mem hts_num_nodup (List.mem_map_of_mem Hole.number hmem)
      · rw [List.count_eq_zero]
        intro hcontra
        rw [List.mem_map] at hcontra
        obtain ⟨h', hh', heq⟩ := hcontra
        have : h' = h :=
          List.inj_on_of_nodup_map hnum (hts_sub h' hh') hh heq
        exact hmem (this ▸ hh')
    rw [hts_count]
    have hiff := mem_take_sorted_iff holes extra hextra hperm h hh
    rw [← hord, ← hts] at hiff
    by_cases hin : h ∈ ts
    · rw [if_pos hin, if_pos (hiff.mp hin)]
      omega
    · rw [if_neg hin, if_neg (fun hc => hin (hiff.mpr hc))]
      omega
  · rw [hunfold, foldl_bump_valuesSum, valuesSum_init, init_map_fst, hlen]
    have : ((ts.map Hole.number).map fun k => (holes.map Hole.number).count k).sum
        = (ts.map Hole.number).length := by
      apply sum_map_ones
      intro k hk
      rw [List.mem_map] at hk
      obtain ⟨h', hh', heq⟩ := hk
      rw [← heq]
      exact List.count_eq_one_of_mem hnum (List.mem_map_of_mem Hole.number (hts_sub h' hh'))
    rw [this, List.length_map, hts_len]
    omega

/-- An 18-hole demo course: hole `i` has par 4 and stroke index `i`. -/
def demoHoles : List Hole :=
  (List.range' 1 18).map (fun i => { number := i, par := 4, stroke_index := i })

/-- C2 witness: on the demo course with course handicap 25, the assigned
per-hole strokes sum to exactly 25. -/
theorem strokes_received_correct_witness :
    valuesSum (strokes_received_per_hole 25 demoHoles) = 25 :=
  (strokes_received_correct 25 demoHoles (by decide) (by decide) (by decide)).2

/-! ## Card saving (`crud.save_card_for_round_player`, lines 425-522)

The per-hole `HoleScore` rows written by a card save.  The raw card input is
`gross_by_hole` (total), `putts_by_hole` (parsed: absent/blank becomes
`None`), and `fir_by_hole`, a dict whose keys may be missing (outer `Option`)
and whose present values are `True`/`False`/`None` as built by the request
handler in `main.py` (inner `Option Bool`). -/

structure HoleScore where
  hole_number : Nat
  gross_strokes : ℤ
  putts : Option ℤ
  fir : Option Bool
  gir : Option Bool
  net_strokes : ℤ
  stableford_points : ℤ
deriving DecidableEq

/-- `bool(fir_by_hole.get(n, False))`: a missing key defaults to `False`, and
`bool` maps `None` and `False` to `False` and `True` to `True`. -/
def firGet (m : Nat → Option (Option Bool)) (n : Nat) : Bool :=
  match m n with
  | none => false
  | some none => false
  | some (some b) => b

/-- Loop body of `save_card_for_round_player` for one hole: the `HoleScore`
row inserted for hole `h` (`crud.py` lines 449-512). -/
def holeScoreRow (received : List (Nat × Nat)) (gross : Nat → ℤ)
    (putts : Nat → Option ℤ) (fir : Nat → Option (Option Bool)) (h : Hole) :
    HoleScore :=
  let g := gross h.number
  let p := putts h.number
  let net := g - (valueAt received h.number : ℤ)
  { hole_number := h.number
    gross_strokes := g
    putts := p
    fir := if h.par ≠ 3 then some (firGet fir h.number) else none
    gir := match p with
           | none => none
           | some pv => some (decide (g - pv ≤ h.par - 2))
    net_strokes := net
    stableford_points := stableford_points net h.par }

/-- The list of `HoleScore` rows written by `save_card_for_round_player`
for a round player with course handicap `ch` on the given holes. -/
def save_card (ch : Nat) (holes : List Hole) (gross : Nat → ℤ)
    (putts : Nat → Option ℤ) (fir : Nat → Option (Option Bool)) :
    List HoleScore :=
  holes.map (holeScoreRow (strokes_received_per_hole ch holes) gross putts fir)

/-- A par-4 hole used in concrete card evaluations. -/
def par4Hole : Hole := { number := 1, par := 4, stroke_index := 1 }

theorem holeScoreRow_fir_par3 (received : List (Nat × Nat)) (gross : Nat → ℤ)
    (putts : Nat → Option ℤ) (fir : Nat → Option (Option Bool)) (h : Hole)
    (h3 : h.par = 3) :
    (holeScoreRow received gross putts fir h).fir = none := by
  simp [holeScoreRow, h3]

theorem holeScoreRow_fir_absent (received : List (Nat × Nat)) (gross : Nat → ℤ)
    (putts : Nat → Option ℤ) (fir : Nat → Option (Option Bool)) (h : Hole)
    (h3 : h.par ≠ 3) (habs : fir h.number = none) :
    (holeScoreRow received gross putts fir h).fir = some false := by
  simp [holeScoreRow, h3, firGet, habs]

theorem holeScoreRow_fir_present (received : List (Nat × Nat)) (gross : Nat → ℤ)
    (putts : Nat → Option ℤ) (fir : Nat → Option (Option Bool)) (h : Hole)
    (h3 : h.par ≠ 3) (v : Option Bool) (hv : fir h.number = some v) :
    (holeScoreRow received gross putts fir h).fir = some (v.getD false) := by
  cases v with
  | none => simp [holeScoreRow, h3, firGet, hv]
  | some b => simp [holeScoreRow, h3, firGet, hv]

theorem holeScoreRow_gir_none_iff (received : List (Nat × Nat)) (gross : Nat → ℤ)
    (putts : Nat → Option ℤ) (fir : Nat → Option (Option Bool)) (h : Hole) :
    (holeScoreRow received gross putts fir h).gir = none ↔ putts h.number = none := by
  cases hp : putts h.number with
  | none => simp [holeScoreRow, hp]
  | some pv => simp [holeScoreRow, hp]

theorem holeScoreRow_gir_some (received : List (Nat × Nat)) (gross : Nat → ℤ)
    (putts : Nat → Option ℤ) (fir : Nat → Option (Option Bool)) (h : Hole)
    (pv : ℤ) (hp : putts h.number = some pv) :
    ((holeScoreRow received gross putts fir h).gir = some true ↔
      gross h.number - pv ≤ h.par - 2) := by
  simp [holeScoreRow, hp, decide_eq_true_iff]

/-! ## Claim C7: stored FIR -/

/-- C7 counterexample: on a non-par-3 hole whose fairway flag is absent from
the card input, the stored FIR is `some false` — coerced to the default
`False` by `bool(fir_by_hole.get(h.number, False))` — not null as claimed. -/
theorem fir_absent_coerced_to_false :
    (save_card 0 [par4Hole] (fun _ => 4) (fun _ => none) (fun _ => none)).map HoleScore.fir
        = [some false] ∧ (some false : Option Bool) ≠ none := by
  constructor
  · decide
  · decide

/-- C7 amended: on par-3 holes the stored FIR is null; on non-par-3 holes an
absent fairway flag is coerced to the default `false` (not kept null), and a
present flag is carried as `bool(value)` — the recorded boolean itself, with
a recorded `None` also coerced to `false`. -/
theorem fir_stored_rules (ch : Nat) (holes : List Hole) (gross : Nat → ℤ)
    (putts : Nat → Option ℤ) (fir : Nat → Option (Option Bool))
    (i : Nat) (hi : i < holes.length) :
    ((holes.get ⟨i, hi⟩).par = 3 →
      ((save_card ch holes gross putts fir).get
        ⟨i, by simpa [save_card] using hi⟩).fir = none) ∧
    ((holes.get ⟨i, hi⟩).par ≠ 3 → fir (holes.get ⟨i, hi⟩).number = none →
      ((save_card ch holes gross putts fir).get
        ⟨i, by simpa [save_card] using hi⟩).fir = some false) ∧
    ((holes.get ⟨i, hi⟩).par ≠ 3 → ∀ v,
      fir (holes.get ⟨i, hi⟩).number = some v →
      ((save_card ch holes gross putts fir).get
        ⟨i, by simpa [save_card] using hi⟩).fir = some (v.getD false)) := by
  have hrow : ((save_card ch holes gross putts fir).get
      ⟨i, by simpa [save_card] using hi⟩)
      = holeScoreRow (strokes_received_per_hole ch holes) gross putts fir
          (holes.get ⟨i, hi⟩) := by
    simp [save_card]
  refine ⟨?_, ?_, ?_⟩
  · intro h3
    rw [hrow]
    exact holeScoreRow_fir_par3 _ _ _ _ _ h3
  · intro h3 habs
    rw [hrow]
    exact holeScoreRow_fir_absent _ _ _ _ _ h3 habs
  · intro h3 v hv
    rw [hrow]
    exact holeScoreRow_fir_present _ _ _ _ _ h3 v hv

/-- C7 witness: the amended rules applied to a one-hole card whose flag is
recorded `True`. -/
theorem fir_stored_rules_witness :
    ((save_card 0 [par4Hole] (fun _ => 4) (fun _ => none)
        (fun _ => some (some true))).get ⟨0, by decide⟩).fir = some true := by
  have h := (fir_stored_rules 0 [par4Hole] (fun _ => 4) (fun _ => none)
      (fun _ => some (some true)) 0 (by decide)).2.2 (by decide) (some true) rfl
  simpa using h

/-! ## Claim C8: stored GIR -/

/-- C8: the stored GIR is null exactly when putts are unknown for the hole,
and otherwise it is true iff `gross_strokes - putts ≤ par - 2`. -/
theorem gir_stored_rules (ch : Nat) (holes : List Hole) (gross : Nat → ℤ)
    (putts : Nat → Option ℤ) (fir : Nat → Option (Option Bool))
    (i : Nat) (hi : i < holes.length) :
    (((save_card ch holes gross putts fir).get
        ⟨i, by simpa [save_card] using hi⟩).gir = none ↔
      putts (holes.get ⟨i, hi⟩).number = none) ∧
    (∀ pv, putts (holes.get ⟨i, hi⟩).number = some pv →
      (((save_card ch holes gross putts fir).get
          ⟨i, by simpa [save_card] using hi⟩).gir = some true ↔
        gross (holes.get ⟨i, hi⟩).number - pv ≤ (holes.get ⟨i, hi⟩).par - 2)) := by
  have hrow : ((save_card ch holes gross putts fir).get
      ⟨i, by simpa [save_card] using hi⟩)
      = holeScoreRow (strokes_received_per_hole ch holes) gross putts fir
          (holes.get ⟨i, hi⟩) := by
    simp [save_card]
  constructor
  · rw [hrow]
    exact holeScoreRow_gir_none_iff _ _ _ _ _
  · intro pv hp
    rw [hrow]
    exact holeScoreRow_gir_some _ _ _ _ _ pv hp

/-- C8 witness: with 3 gross strokes and 2 putts on a par 4, the green was
reached in regulation (`3 - 2 = 1 ≤ 2`), and the stored GIR is known. -/
theorem gir_stored_rules_witness :
    ((save_card 0 [par4Hole] (fun _ => 3) (fun _ => some 2)
        (fun _ => none)).get ⟨0, by decide⟩).gir = some true := by
  have h := (gir_stored_rules 0 [par4Hole] (fun _ => 3) (fun _ => some 2)
      (fun _ => none) 0 (by decide)).2 2 rfl
  exact h.mpr (by decide)

/-! ## Round resolution (`crud.close_round_and_set_winner`, lines 543-561) -/

/-- A round participant as seen by the round resolver: the `RoundPlayer`
row id, the player id, and the stored handicap-Stableford total. -/
structure RP where
  id : Nat
  player_id : Nat
  stableford_hcp_total : Option ℤ
deriving DecidableEq

/-- The terminal state written by round resolution: `Round.winner_type`,
`Round.winner_player_ids`, and each participant's `result`, listed in the
round-player iteration order. -/
structure RoundResolution where
  winner_type : String
  winner_player_ids : String
  results : List (RP × String)
deriving DecidableEq

/-- `close_round_and_set_winner` (`crud.py` lines 543-561).
`max(...)` over the non-null totals raises `ValueError` on an empty
sequence — before any field is mutated — which the embedding renders as
`Except.error`; otherwise the function commits the winner fields and the
per-participant results. -/
def close_round_and_set_winner (rps : List RP) : Except String RoundResolution :=
  match (rps.filterMap RP.stableford_hcp_total).max? with
  | none => Except.error "ValueError: max() arg is an empty sequence"
  | some max_pts =>
    let winners := rps.filter (fun rp => decide (rp.stableford_hcp_total = some max_pts))
    match winners with
    | [w] =>
      Except.ok
        { winner_type := "single"
          winner_player_ids := toString w.player_id
          results := rps.map (fun rp => (rp, if rp.id = w.id then "win" else "loss")) }
    | _ =>
      Except.ok
        { winner_type := "tie"
          winner_player_ids :=
            String.intercalate "," (winners.map (fun w => toString w.player_id))
          results := rps.map (fun rp => (rp, if rp ∈ winners then "tie" else "loss")) }

theorem max?_filterMap_totals (rps : List RP) (M : ℤ)
    (hmem : ∃ rp ∈ rps, rp.stableford_hcp_total = some M)
    (hmax : ∀ rp ∈ rps, ∀ v, rp.stableford_hcp_total = some v → v ≤ M) :
    (rps.filterMap RP.stableford_hcp_total).max? = some M := by
  haveI : Std.Antisymm (fun a b : ℤ => a ≤ b) := ⟨fun h1 h2 => le_antisymm h1 h2⟩
  rw [List.max?_eq_some_iff (fun a => le_refl a) (fun a b => max_choice a b)
    (fun _ _ _ => max_le_iff)]
  constructor
  · obtain ⟨rp, hrp, hv⟩ := hmem
    exact List.mem_filterMap.mpr ⟨rp, hrp, hv⟩
  · intro b hb
    obtain ⟨rp, hrp, hv⟩ := List.mem_filterMap.mp hb
    exact hmax rp hrp b hv

/-- A singleton `join` of strings. -/
theorem intercalate_singleton (sep s : String) :
    String.intercalate sep [s] = s := rfl

/-- C3: in a round where `M` is the maximum handicap-Stableford total (some
participant attains it, none exceeds it) and round-player ids are distinct,
resolution marks as winner exactly the participants whose total equals `M`:
with one such participant, `winner_type = "single"`, that player's id is
recorded, their result is `"win"` and everyone else's `"loss"`; with several,
`winner_type = "tie"`, the tied player ids are comma-joined in round-player
iteration order, the tied get `"tie"` and the rest `"loss"`. -/
theorem close_round_resolution (rps : List RP) (M : ℤ)
    (hmem : ∃ rp ∈ rps, rp.stableford_hcp_total = some M)
    (hmax : ∀ rp ∈ rps, ∀ v, rp.stableford_hcp_total = some v → v ≤ M)
    (hids : (rps.map RP.id).Nodup) :
    close_round_and_set_winner rps = Except.ok
      (if ((rps.filter (fun rp => decide (rp.stableford_hcp_total = some M))).length = 1) then
        { winner_type := "single"
          winner_player_ids := String.intercalate ","
            ((rps.filter (fun rp => decide (rp.stableford_hcp_total = some M))).map
              (fun w => toString w.player_id))
          results := rps.map (fun rp =>
            (rp, if rp.stableford_hcp_total = some M then "win" else "loss")) }
      else
        { winner_type := "tie"
          winner_player_ids := String.intercalate ","
            ((rps.filter (fun rp => decide (rp.stableford_hcp_total = some M))).map
              (fun w => toString w.player_id))
          results := rps.map (fun rp =>
            (rp, if rp.stableford_hcp_total = some M then "tie" else "loss")) }) := by
  have hmaxeq := max?_filterMap_totals rps M hmem hmax
  have hwin_mem : ∀ rp,
      rp ∈ rps.filter (fun rp => decide (rp.stableford_hcp_total = some M)) ↔
        rp ∈ rps ∧ rp.stableford_hcp_total = some M := by
    intro rp
    rw [List.mem_filter, decide_eq_true_iff]
  rcases hcase : rps.filter (fun rp => decide (rp.stableford_hcp_total = some M))
    with _ | ⟨w, _ | ⟨w', ws⟩⟩
  · exfalso
    obtain ⟨rp, hrp, hv⟩ := hmem
    have hmem' := (hwin_mem rp).mpr ⟨hrp, hv⟩
    rw [hcase] at hmem'
    exact absurd hmem' (List.not_mem_nil rp)
  · -- a unique winner
    have hwmem : w ∈ rps ∧ w.stableford_hcp_total = some M := by
      apply (hwin_mem w).mp
      rw [hcase]
      exact List.mem_singleton_self w
    unfold close_round_and_set_winner
    rw [hmaxeq]
    simp only [hcase]
    rw [if_pos (by simp : ([w] : List RP).length = 1)]
    refine congrArg Except.ok ?_
    have hids_eq : toString w.player_id
        = String.intercalate "," ([w].map (fun x => toString x.player_id)) := by
      rw [List.map_cons, List.map_nil, intercalate_singleton]
    have hres : rps.map (fun rp => (rp, if rp.id = w.id then "win" else "loss"))
        = rps.map (fun rp =>
            (rp, if rp.stableford_hcp_total = some M then "win" else "loss")) := by
      apply List.map_congr_left
      intro rp hrp
      have hiff : rp.id = w.id ↔ rp.stableford_hcp_total = some M := by
        constructor
        · intro hid
          have heq : rp = w := List.inj_on_of_nodup_map hids hrp hwmem.1 hid
          rw [heq]
          exact hwmem.2
        · intro htot
          have hrpw := (hwin_mem rp).mpr ⟨hrp, htot⟩
          rw [hcase, List.mem_singleton] at hrpw
          rw [hrpw]
      rw [if_congr hiff rfl rfl]
    rw [hres, hids_eq]
  · -- a tie
    unfold close_round_and_set_winner
    rw [hmaxeq]
    simp only [hcase]
    rw [if_neg (by simp : ¬((w :: w' :: ws : List RP).length = 1))]
    refine congrArg Except.ok ?_
    have hres : rps.map (fun rp => (rp, if rp ∈ w :: w' :: ws then "tie" else "loss"))
        = rps.map (fun rp =>
            (rp, if rp.stableford_hcp_total = some M then "tie" else "loss")) := by
      apply List.map_congr_left
      intro rp hrp
      have hiff : rp ∈ w :: w' :: ws ↔ rp.stableford_hcp_total = some M := by
        rw [← hcase, hwin_mem rp]
        exact ⟨fun h => h.2, fun h => ⟨hrp, h⟩⟩
      rw [if_congr hiff rfl rfl]
    rw [hres]

/-- Round participants realizing the spec's `[10, 15, 15, 8]` example. -/
def demoTieRps : List RP :=
  [⟨1, 11, some 10⟩, ⟨2, 12, some 15⟩, ⟨3, 13, some 15⟩, ⟨4, 14, some 8⟩]

/-- C3 witness: on totals `[10, 15, 15, 8]` the resolution is a tie between
the two players scoring 15, their ids comma-joined, everyone else a loss. -/
theorem close_round_resolution_witness :
    close_round_and_set_winner demoTieRps = Except.ok
      { winner_type := "tie"
        winner_player_ids := "12,13"
        results := [(⟨1, 11, some 10⟩, "loss"), (⟨2, 12, some 15⟩, "tie"),
                    (⟨3, 13, some 15⟩, "tie"), (⟨4, 14, some 8⟩, "loss")] } := by
  have h := close_round_resolution demoTieRps 15
    (by decide)
    (by
      intro rp hrp v hv
      fin_cases hrp <;> simp_all <;> omega)
    (by decide)
  rw [h]
  rfl

/-- C9: when no participant of the round has a non-null handicap-Stableford
total, round resolution raises (`ValueError` from `max` on an empty
sequence) before mutating anything: the embedding returns an error and no
`RoundResolution` state is produced. -/
theorem close_round_all_null_errors (rps : List RP)
    (hnull : ∀ rp ∈ rps, rp.stableford_hcp_total = none) :
    close_round_and_set_winner rps
      = Except.error "ValueError: max() arg is an empty sequence" := by
  have hempty : rps.filterMap RP.stableford_hcp_total = [] :=
    List.filterMap_eq_nil_iff.mpr hnull
  unfold close_round_and_set_winner
  rw [hempty]
  rfl

/-- C9 witness: a round with two unscored participants fails to resolve. -/
theorem close_round_all_null_errors_witness :
    close_round_and_set_winner [⟨1, 11, none⟩, ⟨2, 12, none⟩]
      = Except.error "ValueError: max() arg is an empty sequence" :=
  close_round_all_null_errors [⟨1, 11, none⟩, ⟨2, 12, none⟩] (by decide)

/-! ## League standings (`crud.compute_league_standings`, lines 177-412)

A league round is the list of its `RoundPlayer` rows; a league is a list of
rounds in the stored order.  Python tuple sort keys become lexicographic
orders on products, with a descending component encoded by negation and a
boolean by 0/1. -/

/-- A `RoundPlayer` row as consumed by the standings engine (the fields the
aggregation reads). -/
structure LRP where
  player_id : Nat
  player_name : String
  gross_total : Option ℤ
  net_total : Option ℤ
  stableford_hcp_total : Option ℤ
  stableford_scratch_total : Option ℤ
deriving DecidableEq

/-- Lexicographic comparison of Python 2-tuples of ordered values. -/
def lex2LE {α β : Type} [LinearOrder α] [LinearOrder β] (x y : α × β) : Prop :=
  x.1 < y.1 ∨ (x.1 = y.1 ∧ x.2 ≤ y.2)

/-- Lexicographic comparison of Python 3-tuples of ordered values. -/
def lex3LE {α β γ : Type} [LinearOrder α] [LinearOrder β] [LinearOrder γ]
    (x y : α × β × γ) : Prop :=
  x.1 < y.1 ∨ (x.1 = y.1 ∧ lex2LE x.2 y.2)

instance {α β : Type} [LinearOrder α] [LinearOrder β] :
    DecidableRel (lex2LE (α := α) (β := β)) := fun x y => by
  unfold lex2LE
  infer_instance

instance {α β γ : Type} [LinearOrder α] [LinearOrder β] [LinearOrder γ] :
    DecidableRel (lex3LE (α := α) (β := β) (γ := γ)) := fun x y => by
  unfold lex3LE lex2LE
  infer_instance

theorem lex2LE_total {α β : Type} [LinearOrder α] [LinearOrder β]
    (x y : α × β) : lex2LE x y ∨ lex2LE y x := by
  unfold lex2LE
  rcases lt_trichotomy x.1 y.1 with h | h | h
  · exact Or.inl (Or.inl h)
  · rcases le_total x.2 y.2 with h2 | h2
    · exact Or.inl (Or.inr ⟨h, h2⟩)
    · exact Or.inr (Or.inr ⟨h.symm, h2⟩)
  · exact Or.inr (Or.inl h)

theorem lex2LE_trans {α β : Type} [LinearOrder α] [LinearOrder β]
    {x y z : α × β} (hxy : lex2LE x y) (hyz : lex2LE y z) : lex2LE x z := by
  unfold lex2LE at *
  rcases hxy with h | ⟨he, h2⟩ <;> rcases hyz with h' | ⟨he', h2'⟩
  · exact Or.inl (h.trans h')
  · exact Or.inl (he' ▸ h)
  · exact Or.inl (he ▸ h')
  · exact Or.inr ⟨he.trans he', h2.trans h2'⟩

theorem lex3LE_total {α β γ : Type} [LinearOrder α] [LinearOrder β] [LinearOrder γ]
    (x y : α × β × γ) : lex3LE x y ∨ lex3LE y x := by
  unfold lex3LE
  rcases lt_trichotomy x.1 y.1 with h | h | h
  · exact Or.inl (Or.inl h)
  · rcases lex2LE_total x.2 y.2 with h2 | h2
    · exact Or.inl (Or.inr ⟨h, h2⟩)
    · exact Or.inr (Or.inr ⟨h.symm, h2⟩)
  · exact Or.inr (Or.inl h)

theorem lex3LE_trans {α β γ : Type} [LinearOrder α] [LinearOrder β] [LinearOrder γ]
    {x y z : α × β × γ} (hxy : lex3LE x y) (hyz : lex3LE y z) : lex3LE x z := by
  unfold lex3LE at *
  rcases hxy with h | ⟨he, h2⟩ <;> rcases hyz with h' | ⟨he', h2'⟩
  · exact Or.inl (h.trans h')
  · exact Or.inl (he' ▸ h)
  · exact Or.inl (he ▸ h')
  · exact Or.inr ⟨he.trans he', lex2LE_trans h2 h2'⟩

theorem lex2LE_fst_le {α β : Type} [LinearOrder α] [LinearOrder β]
    {x y : α × β} (h : lex2LE x y) : x.1 ≤ y.1 := by
  rcases h with h | ⟨he, _⟩
  · exact le_of_lt h
  · exact le_of_eq he

theorem lex3LE_fst_le {α β γ : Type} [LinearOrder α] [LinearOrder β] [LinearOrder γ]
    {x y : α × β × γ} (h : lex3LE x y) : x.1 ≤ y.1 := by
  rcases h with h | ⟨he, _⟩
  · exact le_of_lt h
  · exact le_of_eq he

theorem lex2LE_snd_le {α β : Type} [LinearOrder α] [LinearOrder β]
    {x y : α × β} (h : lex2LE x y) (he : x.1 = y.1) : x.2 ≤ y.2 := by
  rcases h with h | ⟨_, h2⟩
  · exact absurd h (by rw [he]; exact lt_irrefl _)
  · exact h2

/-- The sort key of `rps_sorted` in the per-round F1 loop (`crud.py` lines
217-221): `(rp.stableford_hcp_total is None, -(rp.stableford_hcp_total or 0))`,
with the boolean encoded as `0`/`1`. -/
def f1Key (rp : LRP) : ℤ × ℤ :=
  ((if rp.stableford_hcp_total.isNone then 1 else 0), -(rp.stableford_hcp_total.getD 0))

def f1KeyLE (a b : LRP) : Prop := lex2LE (f1Key a) (f1Key b)

instance : DecidableRel f1KeyLE := fun a b => by
  unfold f1KeyLE
  infer_instance

instance : IsTotal LRP f1KeyLE := ⟨fun a b => lex2LE_total (f1Key a) (f1Key b)⟩

instance : IsTrans LRP f1KeyLE := ⟨fun _ _ _ h h' => lex2LE_trans h h'⟩

/-- The league points a player gains from one round: the per-round F1
distribution of `compute_league_standings` (`crud.py` lines 210-292,
restricted to the `f1_points` accumulation).  `n - 1` points (clamped at 0)
are split evenly among the participants tied at the round's best
handicap-Stableford total, `n` counting the valid participants. -/
def f1RoundIncrement (r : List LRP) (pid : Nat) : ℚ :=
  let rps := r.filter (fun rp => !rp.gross_total.isNone)
  if rps.length = 0 then 0
  else
    let valid_rps := (List.insertionSort f1KeyLE rps).filter
      (fun rp => !rp.stableford_hcp_total.isNone)
    match valid_rps with
    | [] => 0
    | best :: _ =>
      let winners := valid_rps.filter
        (fun rp => decide (rp.stableford_hcp_total = best.stableford_hcp_total))
      let t : ℚ := (valid_rps.length : ℚ) - 1
      let total_points_round : ℚ := if t < 0 then 0 else t
      let points_per_winner : ℚ :=
        if winners.length = 0 then 0 else total_points_round / (winners.length : ℚ)
      points_per_winner * ((winners.filter (fun rp => decide (rp.player_id = pid))).length : ℚ)

/-- `rps = [rp for rp in r.round_players if rp.gross_total is not None]`. -/
def grossRPs (r : List LRP) : List LRP :=
  r.filter (fun rp => !rp.gross_total.isNone)

/-- All gross-scored round participations of the league, in round order. -/
def leagueRPs (rounds : List (List LRP)) : List LRP :=
  (rounds.map grossRPs).flatten

/-- Insert a key into the insertion-ordered key list of the `stats` dict. -/
def insertOnce (acc : List Nat) (x : Nat) : List Nat :=
  if x ∈ acc then acc else acc ++ [x]

/-- The keys of the `stats` defaultdict in insertion (first-appearance)
order, i.e. the iteration order of `stats.items()`. -/
def playersOrder (rounds : List (List LRP)) : List Nat :=
  ((leagueRPs rounds).map LRP.player_id).foldl insertOnce []

/-- This player's gross-scored participations across the league. -/
def playerRPs (rounds : List (List LRP)) (pid : Nat) : List LRP :=
  (leagueRPs rounds).filter (fun rp => decide (rp.player_id = pid))

/-- `s["rounds"]` for this player. -/
def roundsPlayed (rounds : List (List LRP)) (pid : Nat) : Nat :=
  (playerRPs rounds pid).length

/-- `s["net_sum"]` for this player. -/
def netSum (rounds : List (List LRP)) (pid : Nat) : ℤ :=
  ((playerRPs rounds pid).filterMap LRP.net_total).sum

/-- `s["net_count"]` for this player. -/
def netCount (rounds : List (List LRP)) (pid : Nat) : Nat :=
  ((playerRPs rounds pid).filterMap LRP.net_total).length

/-- `s["scratch_sum"]` for this player. -/
def scratchSum (rounds : List (List LRP)) (pid : Nat) : ℤ :=
  ((playerRPs rounds pid).filterMap LRP.stableford_scratch_total).sum

/-- `s["player"].name`: the name attached at the player's first appearance. -/
def playerName (rounds : List (List LRP)) (pid : Nat) : String :=
  (((playerRPs rounds pid).head?).map LRP.player_name).getD ""

/-- A row of the net leaderboard. -/
structure NetRow where
  player_id : Nat
  name : String
  avg_net : ℚ
  rounds : Nat
deriving DecidableEq

/-- The net row of one player. -/
def netRowOf (rounds : List (List LRP)) (pid : Nat) : NetRow :=
  { player_id := pid
    name := playerName rounds pid
    avg_net := (netSum rounds pid : ℚ) / (netCount rounds pid : ℚ)
    rounds := roundsPlayed rounds pid }

/-- `net_rows` before sorting: one row per player with `net_count > 0`, in
`stats.items()` order. -/
def netRows (rounds : List (List LRP)) : List NetRow :=
  (playersOrder rounds).filterMap (fun pid =>
    if 0 < netCount rounds pid then some (netRowOf rounds pid) else none)

/-- Sort key of the net leaderboard: `(avg_net, -rounds, name)`. -/
def netRowKey (row : NetRow) : ℚ × ℤ × String :=
  (row.avg_net, (-(row.rounds : ℤ), row.name))

def netRowLE (a b : NetRow) : Prop := lex3LE (netRowKey a) (netRowKey b)

instance : DecidableRel netRowLE := fun a b => by
  unfold netRowLE
  infer_instance

instance : IsTotal NetRow netRowLE := ⟨fun a b => lex3LE_total (netRowKey a) (netRowKey b)⟩

instance : IsTrans NetRow netRowLE := ⟨fun _ _ _ h h' => lex3LE_trans h h'⟩

/-- Net champions of a closed league (`crud.py` lines 385-392): among the
sorted net rows with at least 5 rounds, every row matching the first one's
average net; empty when the league is open or no row is eligible. -/
def netChampions (rounds : List (List LRP)) (is_closed : Bool) : List Nat :=
  if is_closed then
    let eligible := (List.insertionSort netRowLE (netRows rounds)).filter
      (fun row => decide (5 ≤ row.rounds))
    match eligible with
    | [] => []
    | best :: _ =>
      (eligible.filter (fun row => decide (row.avg_net = best.avg_net))).map
        NetRow.player_id
  else []

/-- A row of the scratch leaderboard. -/
structure ScratchRow where
  player_id : Nat
  name : String
  total_scratch : ℤ
  rounds : Nat
deriving DecidableEq

/-- The scratch row of one player. -/
def scratchRowOf (rounds : List (List LRP)) (pid : Nat) : ScratchRow :=
  { player_id := pid
    name := playerName rounds pid
    total_scratch := scratchSum rounds pid
    rounds := roundsPlayed rounds pid }

/-- `scratch_rows` before sorting: one row per player with
`scratch_sum > 0`, in `stats.items()` order. -/
def scratchRows (rounds : List (List LRP)) : List ScratchRow :=
  (playersOrder rounds).filterMap (fun pid =>
    if 0 < scratchSum rounds pid then some (scratchRowOf rounds pid) else none)

/-- Sort key of the scratch leaderboard: `(-total_scratch, -rounds, name)`. -/
def scratchRowKey (row : ScratchRow) : ℤ × ℤ × String :=
  (-row.total_scratch, (-(row.rounds : ℤ), row.name))

def scratchRowLE (a b : ScratchRow) : Prop := lex3LE (scratchRowKey a) (scratchRowKey b)

instance : DecidableRel scratchRowLE := fun a b => by
  unfold scratchRowLE
  infer_instance

instance : IsTotal ScratchRow scratchRowLE :=
  ⟨fun a b => lex3LE_total (scratchRowKey a) (scratchRowKey b)⟩

instance : IsTrans ScratchRow scratchRowLE := ⟨fun _ _ _ h h' => lex3LE_trans h h'⟩

/-- Scratch champions of a closed league (`crud.py` lines 394-400): every
sorted scratch row matching the first one's total. -/
def scratchChampions (rounds : List (List LRP)) (is_closed : Bool) : List Nat :=
  if is_closed then
    let sorted := List.insertionSort scratchRowLE (scratchRows rounds)
    match sorted with
    | [] => []
    | best :: _ =>
      (sorted.filter (fun row => decide (row.total_scratch = best.total_scratch))).map
        ScratchRow.player_id
  else []

/-! ## Supporting lemmas for the league claims -/

theorem bnot_isNone_of_ne_none {α : Type} (o : Option α) (h : o ≠ none) :
    (!o.isNone) = true := by
  cases o with
  | none => exact absurd rfl h
  | some v => rfl

theorem ne_none_of_bnot_isNone {α : Type} (o : Option α) (h : (!o.isNone) = true) :
    o ≠ none := by
  cases o with
  | none => simp at h
  | some v => simp

theorem eq_singleton_of_nodup {α : Type} (l : List α) (a : α) (hnd : l.Nodup)
    (hall : ∀ x ∈ l, x = a) (ha : a ∈ l) : l = [a] := by
  cases l with
  | nil => cases ha
  | cons x t =>
    have hx : x = a := hall x (List.mem_cons_self x t)
    subst hx
    have ht : t = [] := by
      rw [List.eq_nil_iff_forall_not_mem]
      intro y hy
      have hya : y = x := hall y (List.mem_cons_of_mem x hy)
      rw [List.nodup_cons] at hnd
      exact hnd.1 (hya ▸ hy)
    rw [ht]

/-- Under the save-card data invariant (a non-null handicap-Stableford total
comes with a non-null gross total), the valid participants of the F1 loop
are, up to order, exactly the participants with a non-null total. -/
theorem valid_rps_perm (r : List LRP)
    (hcouple : ∀ rp ∈ r, rp.stableford_hcp_total ≠ none → rp.gross_total ≠ none) :
    List.Perm
      ((List.insertionSort f1KeyLE (r.filter (fun rp => !rp.gross_total.isNone))).filter
        (fun rp => !rp.stableford_hcp_total.isNone))
      (r.filter (fun rp => !rp.stableford_hcp_total.isNone)) := by
  have h1 := (List.perm_insertionSort f1KeyLE
    (r.filter (fun rp => !rp.gross_total.isNone))).filter
    (fun rp => !rp.stableford_hcp_total.isNone)
  rw [List.filter_filter] at h1
  have h3 : r.filter (fun a => (!a.stableford_hcp_total.isNone) && (!a.gross_total.isNone))
      = r.filter (fun rp => !rp.stableford_hcp_total.isNone) := by
    apply List.filter_congr
    intro a ha
    cases htot : a.stableford_hcp_total with
    | none => simp [htot]
    | some v =>
      have hg : a.gross_total ≠ none := hcouple a ha (by rw [htot]; exact Option.some_ne_none v)
      rw [bnot_isNone_of_ne_none a.gross_total hg]
      simp [htot]
  rw [h3] at h1
  exact h1

/-- The head of the sorted valid list attains the round's maximum total. -/
theorem best_total_eq_max (r : List LRP) (M : ℤ)
    (hcouple : ∀ rp ∈ r, rp.stableford_hcp_total ≠ none → rp.gross_total ≠ none)
    (hmem : ∃ rp ∈ r, rp.stableford_hcp_total = some M)
    (hmax : ∀ rp ∈ r, ∀ v, rp.stableford_hcp_total = some v → v ≤ M)
    (best : LRP) (rest : List LRP)
    (hvalid : (List.insertionSort f1KeyLE (r.filter (fun rp => !rp.gross_total.isNone))).filter
        (fun rp => !rp.stableford_hcp_total.isNone) = best :: rest) :
    best.stableford_hcp_total = some M := by
  have hperm := valid_rps_perm r hcouple
  rw [hvalid] at hperm
  have hbest_mem : best ∈ r.filter (fun rp => !rp.stableford_hcp_total.isNone) :=
    hperm.subset (List.mem_cons_self best rest)
  rw [List.mem_filter] at hbest_mem
  obtain ⟨hbr, hbnn⟩ := hbest_mem
  cases hbt : best.stableford_hcp_total with
  | none => exact absurd hbt (ne_none_of_bnot_isNone _ hbnn)
  | some vb =>
    have hvb_le : vb ≤ M := hmax best hbr vb hbt
    obtain ⟨rp0, hrp0, hrp0M⟩ := hmem
    have hrp0_mem : rp0 ∈ best :: rest := by
      apply hperm.symm.subset
      rw [List.mem_filter]
      exact ⟨hrp0, by rw [hrp0M]; rfl⟩
    rcases List.mem_cons.mp hrp0_mem with heq | hrest
    · rw [heq] at hrp0M
      rw [hbt] at hrp0M
      exact hrp0M
    · have hsorted : List.Sorted f1KeyLE ((List.insertionSort f1KeyLE
          (r.filter (fun rp => !rp.gross_total.isNone))).filter
          (fun rp => !rp.stableford_hcp_total.isNone)) :=
        List.Pairwise.filter _ (List.sorted_insertionSort f1KeyLE _)
      rw [hvalid] at hsorted
      have hle : f1KeyLE best rp0 := (List.rel_of_sorted_cons hsorted) rp0 hrest
      have hfst : (f1Key best).1 = (f1Key rp0).1 := by
        simp [f1Key, hbt, hrp0M]
      have hsnd := lex2LE_snd_le hle hfst
      simp only [f1Key, hbt, hrp0M] at hsnd
      have hM_le : M ≤ vb := by
        simp [Option.getD] at hsnd
        omega
      exact congrArg some (le_antisymm hvb_le hM_le)

/-- C4: under the save-card invariant and distinct player ids, a round of a
league distributes, to each participant, `(n - 1) / w` points when their
handicap-Stableford total equals the round's maximum `M` and `0` otherwise,
where `n` counts the participants with a non-null total and `w` those
attaining `M`; rounds with no scored participant distribute nothing. -/
theorem f1_round_points (r : List LRP)
    (hcouple : ∀ rp ∈ r, rp.stableford_hcp_total ≠ none → rp.gross_total ≠ none)
    (hpids : (r.map LRP.player_id).Nodup) :
    ((∀ rp ∈ r, rp.stableford_hcp_total = none) →
      ∀ pid, f1RoundIncrement r pid = 0) ∧
    (∀ M : ℤ, (∃ rp ∈ r, rp.stableford_hcp_total = some M) →
      (∀ rp ∈ r, ∀ v, rp.stableford_hcp_total = some v → v ≤ M) →
      ∀ rp ∈ r,
        f1RoundIncrement r rp.player_id
          = if rp.stableford_hcp_total = some M
            then (((r.filter (fun x => !x.stableford_hcp_total.isNone)).length : ℚ) - 1)
                  / ((r.filter (fun x => decide (x.stableford_hcp_total = some M))).length : ℚ)
            else 0) := by
  constructor
  · intro hall pid
    have hvalid : (List.insertionSort f1KeyLE (r.filter (fun rp => !rp.gross_total.isNone))).filter
        (fun rp => !rp.stableford_hcp_total.isNone) = [] := by
      rw [List.filter_eq_nil_iff]
      intro a ha
      have har : a ∈ r := (List.filter_sublist r).subset
        ((List.perm_insertionSort f1KeyLE _).subset ha)
      rw [hall a har]
      simp
    unfold f1RoundIncrement
    by_cases hn : (r.filter (fun rp => !rp.gross_total.isNone)).length = 0
    · rw [if_pos hn]
    · rw [if_neg hn]
      simp only [hvalid]
  · intro M hmem hmax rp hrp
    obtain ⟨rp0, hrp0, hrp0M⟩ := hmem
    have hrp0_gross : rp0 ∈ r.filter (fun x => !x.gross_total.isNone) := by
      rw [List.mem_filter]
      refine ⟨hrp0, ?_⟩
      exact bnot_isNone_of_ne_none _ (hcouple rp0 hrp0 (by rw [hrp0M]; exact Option.some_ne_none M))
    have hrp0_valid : rp0 ∈ r.filter (fun x => !x.stableford_hcp_total.isNone) := by
      rw [List.mem_filter]
      exact ⟨hrp0, by rw [hrp0M]; rfl⟩
    have hn : ¬((r.filter (fun x => !x.gross_total.isNone)).length = 0) := by
      rw [List.length_eq_zero]
      intro hnil
      rw [hnil] at hrp0_gross
      exact absurd hrp0_gross (List.not_mem_nil rp0)
    have hperm := valid_rps_perm r hcouple
    rcases hvalid : (List.insertionSort f1KeyLE (r.filter (fun x => !x.gross_total.isNone))).filter
        (fun x => !x.stableford_hcp_total.isNone) with _ | ⟨best, rest⟩
    · exfalso
      rw [hvalid] at hperm
      exact absurd (hperm.symm.subset hrp0_valid) (List.not_mem_nil rp0)
    · have hbest : best.stableford_hcp_total = some M :=
        best_total_eq_max r M hcouple ⟨rp0, hrp0, hrp0M⟩ hmax best rest hvalid
      rw [hvalid] at hperm
      -- the tied winners, up to order, among all participants
      have hwinners_perm : List.Perm
          ((best :: rest).filter (fun x => decide (x.stableford_hcp_total = some M)))
          (r.filter (fun x => decide (x.stableford_hcp_total = some M))) := by
        have h1 := hperm.filter (fun x => decide (x.stableford_hcp_total = some M))
        rw [List.filter_filter] at h1
        have h2 : r.filter (fun a => decide (a.stableford_hcp_total = some M)
              && (!a.stableford_hcp_total.isNone))
            = r.filter (fun a => decide (a.stableford_hcp_total = some M)) := by
          apply List.filter_congr
          intro a ha
          by_cases haM : a.stableford_hcp_total = some M
          · rw [haM]
            simp
          · simp [haM]
        rw [h2] at h1
        exact h1
      have hrp0_winner : rp0 ∈ r.filter (fun x => decide (x.stableford_hcp_total = some M)) := by
        rw [List.mem_filter, decide_eq_true_iff]
        exact ⟨hrp0, hrp0M⟩
      have hw_pos : 0 < (r.filter (fun x => decide (x.stableford_hcp_total = some M))).length :=
        List.length_pos.mpr (List.ne_nil_of_mem hrp0_winner)
      have hn_pos : 0 < (r.filter (fun x => !x.stableford_hcp_total.isNone)).length :=
        List.length_pos.mpr (List.ne_nil_of_mem hrp0_valid)
      -- the number of this player's entries among the winners
      have hcount : ((r.filter (fun x => decide (x.stableford_hcp_total = some M))).filter
            (fun x => decide (x.player_id = rp.player_id))).length
          = if rp.stableford_hcp_total = some M then 1 else 0 := by
        by_cases htot : rp.stableford_hcp_total = some M
        · rw [if_pos htot]
          have hsub : ((r.filter (fun x => decide (x.stableford_hcp_total = some M))).filter
                (fun x => decide (x.player_id = rp.player_id))).Sublist r :=
            (List.filter_sublist _).trans (List.filter_sublist _)
          have heq : ((r.filter (fun x => decide (x.stableford_hcp_total = some M))).filter
                (fun x => decide (x.player_id = rp.player_id))) = [rp] := by
            apply eq_singleton_of_nodup _ rp (hsub.nodup (List.Nodup.of_map _ hpids))
            · intro x hx
              have hx' : x ∈ r.filter (fun y => decide (y.stableford_hcp_total = some M)) :=
                (List.filter_sublist _).subset hx
              have hxr : x ∈ r := (List.filter_sublist _).subset hx'
              have hxpid : x.player_id = rp.player_id :=
                of_decide_eq_true (List.mem_filter.mp hx).2
              exact List.inj_on_of_nodup_map hpids hxr hrp hxpid
            · rw [List.mem_filter]
              refine ⟨?_, decide_eq_true rfl⟩
              rw [List.mem_filter]
              exact ⟨hrp, decide_eq_true htot⟩
          rw [heq]
          rfl
        · rw [if_neg htot]
          have heq : ((r.filter (fun x => decide (x.stableford_hcp_total = some M))).filter
                (fun x => decide (x.player_id = rp.player_id))) = [] := by
            rw [List.filter_eq_nil_iff]
            intro a ha
            have haq : a.stableford_hcp_total = some M :=
              of_decide_eq_true (List.mem_filter.mp ha).2
            have har : a ∈ r := (List.filter_sublist r).subset ha
            intro hdec
            have hpid : a.player_id = rp.player_id := of_decide_eq_true hdec
            have haeq : a = rp := List.inj_on_of_nodup_map hpids har hrp hpid
            rw [haeq] at haq
            exact htot haq
          rw [heq]
          rfl
      -- reduce the program
      unfold f1RoundIncrement
      rw [if_neg hn]
      simp only [hvalid, hbest]
      have hlen_valid : (best :: rest).length
          = (r.filter (fun x => !x.stableford_hcp_total.isNone)).length := hperm.length_eq
      have hwinlen : ((best :: rest).filter
            (fun x => decide (x.stableford_hcp_total = some M))).length
          = (r.filter (fun x => decide (x.stableford_hcp_total = some M))).length :=
        hwinners_perm.length_eq
      have hpidlen : (((best :: rest).filter
              (fun x => decide (x.stableford_hcp_total = some M))).filter
            (fun x => decide (x.player_id = rp.player_id))).length
          = ((r.filter (fun x => decide (x.stableford_hcp_total = some M))).filter
            (fun x => decide (x.player_id = rp.player_id))).length :=
        (hwinners_perm.filter _).length_eq
      rw [hwinlen, hpidlen, hcount, hlen_valid]
      rw [if_neg (by omega : ¬(r.filter (fun x => decide (x.stableford_hcp_total = some M))).length = 0)]
      rw [if_neg (by
        rw [not_lt, sub_nonneg]
        exact_mod_cast hn_pos)]
      by_cases htot : rp.stableford_hcp_total = some M
      · rw [if_pos htot, if_pos htot]
        rw [Nat.cast_one, mul_one]
      · rw [if_neg htot, if_neg htot]
        rw [Nat.cast_zero, mul_zero]

/-- The spec's example league round: four scored participants with
handicap-Stableford totals 10, 15, 15, 8. -/
def demoLeagueRound : List LRP :=
  [⟨11, "Ana", some 80, some 70, some 10, some 5⟩,
   ⟨12, "Bea", some 75, some 65, some 15, some 8⟩,
   ⟨13, "Cal", some 78, some 68, some 15, some 7⟩,
   ⟨14, "Dan", some 90, some 80, some 8, some 2⟩]

/-- C4 witness: with 4 scored participants and two tied at the best total
15, each of the two gains `(4 - 1) / 2 = 1.5` league points. -/
theorem f1_round_points_witness :
    f1RoundIncrement demoLeagueRound 12 = 3/2 := by
  have h := (f1_round_points demoLeagueRound (by decide) (by decide)).2 15
    (by decide)
    (by
      intro rp hrp v hv
      fin_cases hrp <;> simp_all <;> omega)
    ⟨12, "Bea", some 75, some 65, some 15, some 8⟩ (by decide)
  rw [h, if_pos rfl]
  rw [show (demoLeagueRound.filter (fun x => !x.stableford_hcp_total.isNone)).length = 4
    from rfl]
  rw [show (demoLeagueRound.filter
      (fun x => decide (x.stableford_hcp_total = some 15))).length = 2 from rfl]
  norm_num

/-! ## Claims C6 and C10: champions of a closed league -/

theorem mem_foldl_insertOnce (l : List Nat) (acc : List Nat) (x : Nat) :
    x ∈ l.foldl insertOnce acc ↔ x ∈ acc ∨ x ∈ l := by
  induction l generalizing acc with
  | nil => simp
  | cons y t ih =>
    rw [List.foldl_cons, ih]
    unfold insertOnce
    by_cases hy : y ∈ acc
    · rw [if_pos hy]
      constructor
      · rintro (h | h)
        · exact Or.inl h
        · exact Or.inr (List.mem_cons_of_mem _ h)
      · rintro (h | h)
        · exact Or.inl h
        · rcases List.mem_cons.mp h with rfl | h
          · exact Or.inl hy
          · exact Or.inr h
    · rw [if_neg hy]
      simp only [List.mem_append, List.mem_singleton, List.mem_cons]
      tauto

theorem nodup_foldl_insertOnce (l : List Nat) (acc : List Nat) (hacc : acc.Nodup) :
    (l.foldl insertOnce acc).Nodup := by
  induction l generalizing acc with
  | nil => exact hacc
  | cons y t ih =>
    rw [List.foldl_cons]
    apply ih
    unfold insertOnce
    by_cases hy : y ∈ acc
    · rw [if_pos hy]
      exact hacc
    · rw [if_neg hy]
      rw [List.nodup_append]
      refine ⟨hacc, List.nodup_singleton y, ?_⟩
      intro a ha hb
      rw [List.mem_singleton] at hb
      exact hy (hb ▸ ha)

theorem playersOrder_nodup (rounds : List (List LRP)) :
    (playersOrder rounds).Nodup :=
  nodup_foldl_insertOnce _ [] List.nodup_nil

theorem filterMap_length_eq_of_all_some {α β : Type} (f : α → Option β) (l : List α)
    (h : ∀ x ∈ l, f x ≠ none) : (l.filterMap f).length = l.length := by
  induction l with
  | nil => rfl
  | cons a t ih =>
    cases hfa : f a with
    | none => exact absurd hfa (h a (List.mem_cons_self a t))
    | some b =>
      rw [List.filterMap_cons_some hfa]
      simp only [List.length_cons]
      rw [ih (fun x hx => h x (List.mem_cons_of_mem a hx))]

theorem mem_leagueRPs (rounds : List (List LRP)) (rp : LRP) :
    rp ∈ leagueRPs rounds ↔ ∃ rd ∈ rounds, rp ∈ grossRPs rd := by
  unfold leagueRPs
  rw [List.mem_flatten]
  constructor
  · rintro ⟨l, hl, hrp⟩
    rw [List.mem_map] at hl
    obtain ⟨rd, hrd, rfl⟩ := hl
    exact ⟨rd, hrd, hrp⟩
  · rintro ⟨rd, hrd, hrp⟩
    exact ⟨grossRPs rd, List.mem_map_of_mem _ hrd, hrp⟩

/-- Under the save-card data invariant (a gross-scored participation has a
net total), every gross-scored participation counts towards `net_count`, so
`net_count = rounds played`. -/
theorem netCount_eq_roundsPlayed (rounds : List (List LRP))
    (hcouple : ∀ rd ∈ rounds, ∀ rp ∈ rd, rp.gross_total ≠ none → rp.net_total ≠ none)
    (pid : Nat) : netCount rounds pid = roundsPlayed rounds pid := by
  unfold netCount roundsPlayed
  apply filterMap_length_eq_of_all_some
  intro rp hrp
  have hrp' : rp ∈ leagueRPs rounds := (List.filter_sublist _).subset hrp
  rw [mem_leagueRPs] at hrp'
  obtain ⟨rd, hrd, hrpg⟩ := hrp'
  unfold grossRPs at hrpg
  rw [List.mem_filter] at hrpg
  exact hcouple rd hrd rp hrpg.1 (ne_none_of_bnot_isNone _ hrpg.2)

theorem mem_netRows (rounds : List (List LRP)) (row : NetRow) :
    row ∈ netRows rounds ↔
      ∃ pid ∈ playersOrder rounds,
        0 < netCount rounds pid ∧ row = netRowOf rounds pid := by
  unfold netRows
  rw [List.mem_filterMap]
  constructor
  · rintro ⟨pid, hpid, hf⟩
    by_cases h : 0 < netCount rounds pid
    · rw [if_pos h] at hf
      exact ⟨pid, hpid, h, (Option.some_inj.mp hf).symm⟩
    · rw [if_neg h] at hf
      cases hf
  · rintro ⟨pid, hpid, h, rfl⟩
    exact ⟨pid, hpid, by rw [if_pos h]⟩

theorem mem_scratchRows (rounds : List (List LRP)) (row : ScratchRow) :
    row ∈ scratchRows rounds ↔
      ∃ pid ∈ playersOrder rounds,
        0 < scratchSum rounds pid ∧ row = scratchRowOf rounds pid := by
  unfold scratchRows
  rw [List.mem_filterMap]
  constructor
  · rintro ⟨pid, hpid, hf⟩
    by_cases h : 0 < scratchSum rounds pid
    · rw [if_pos h] at hf
      exact ⟨pid, hpid, h, (Option.some_inj.mp hf).symm⟩
    · rw [if_neg h] at hf
      cases hf
  · rintro ⟨pid, hpid, h, rfl⟩
    exact ⟨pid, hpid, by rw [if_pos h]⟩

theorem netChampions_eq (rounds : List (List LRP)) :
    netChampions rounds true
      = (match (List.insertionSort netRowLE (netRows rounds)).filter
            (fun row => decide (5 ≤ row.rounds)) with
         | [] => ([] : List Nat)
         | best :: _ =>
           (((List.insertionSort netRowLE (netRows rounds)).filter
              (fun row => decide (5 ≤ row.rounds))).filter
             (fun row => decide (row.avg_net = best.avg_net))).map NetRow.player_id) :=
  rfl

theorem scratchChampions_eq (rounds : List (List LRP)) :
    scratchChampions rounds true
      = (match List.insertionSort scratchRowLE (scratchRows rounds) with
         | [] => ([] : List Nat)
         | best :: _ =>
           ((List.insertionSort scratchRowLE (scratchRows rounds)).filter
             (fun row => decide (row.total_scratch = best.total_scratch))).map
             ScratchRow.player_id) :=
  rfl

/-- C6: in a closed league, under the save-card data invariant, the net
champions are exactly the players with at least 5 rounds played whose
average net is minimal among those players; with no player at 5 rounds the
champion list is empty. -/
theorem net_champions_characterization (rounds : List (List LRP))
    (hcouple : ∀ rd ∈ rounds, ∀ rp ∈ rd, rp.gross_total ≠ none → rp.net_total ≠ none) :
    ((∀ pid ∈ playersOrder rounds, roundsPlayed rounds pid < 5) →
      netChampions rounds true = []) ∧
    (∀ pid, pid ∈ netChampions rounds true ↔
      (pid ∈ playersOrder rounds ∧ 5 ≤ roundsPlayed rounds pid ∧
        ∀ qid ∈ playersOrder rounds, 5 ≤ roundsPlayed rounds qid →
          (netSum rounds pid : ℚ) / (netCount rounds pid : ℚ)
            ≤ (netSum rounds qid : ℚ) / (netCount rounds qid : ℚ))) := by
  have hperm : List.Perm (List.insertionSort netRowLE (netRows rounds)) (netRows rounds) :=
    List.perm_insertionSort netRowLE (netRows rounds)
  have hrow_mem : ∀ pid, pid ∈ playersOrder rounds → 5 ≤ roundsPlayed rounds pid →
      netRowOf rounds pid ∈ (List.insertionSort netRowLE (netRows rounds)).filter
        (fun row => decide (5 ≤ row.rounds)) := by
    intro pid h1 h2
    rw [List.mem_filter]
    constructor
    · rw [hperm.mem_iff, mem_netRows]
      refine ⟨pid, h1, ?_, rfl⟩
      rw [netCount_eq_roundsPlayed rounds hcouple pid]
      omega
    · exact decide_eq_true h2
  have hE_mem : ∀ row ∈ (List.insertionSort netRowLE (netRows rounds)).filter
        (fun row => decide (5 ≤ row.rounds)),
      ∃ pid, (pid ∈ playersOrder rounds ∧ 5 ≤ roundsPlayed rounds pid) ∧
        row = netRowOf rounds pid := by
    intro row hrow
    have h1 : row ∈ netRows rounds :=
      hperm.subset ((List.filter_sublist _).subset hrow)
    have h5 : 5 ≤ row.rounds := of_decide_eq_true (List.mem_filter.mp hrow).2
    rw [mem_netRows] at h1
    obtain ⟨pid, hpid, _, rfl⟩ := h1
    exact ⟨pid, ⟨hpid, h5⟩, rfl⟩
  have hE_sorted : List.Sorted netRowLE
      ((List.insertionSort netRowLE (netRows rounds)).filter
        (fun row => decide (5 ≤ row.rounds))) :=
    List.Pairwise.filter _ (List.sorted_insertionSort netRowLE (netRows rounds))
  constructor
  · intro hall
    have hE : (List.insertionSort netRowLE (netRows rounds)).filter
        (fun row => decide (5 ≤ row.rounds)) = [] := by
      rw [List.filter_eq_nil_iff]
      intro row hrow
      have h1 : row ∈ netRows rounds := hperm.subset hrow
      rw [mem_netRows] at h1
      obtain ⟨pid, hpid, _, rfl⟩ := h1
      intro hdec
      have h5 : 5 ≤ roundsPlayed rounds pid := of_decide_eq_true hdec
      have := hall pid hpid
      omega
    rw [netChampions_eq]
    simp only [hE]
  · intro pid
    rcases hE : (List.insertionSort netRowLE (netRows rounds)).filter
        (fun row => decide (5 ≤ row.rounds)) with _ | ⟨best, rest⟩
    · rw [netChampions_eq]
      simp only [hE]
      simp only [List.not_mem_nil, false_iff]
      rintro ⟨h1, h2, _⟩
      have hmem := hrow_mem pid h1 h2
      rw [hE] at hmem
      exact absurd hmem (List.not_mem_nil _)
    · have hbestE : best ∈ (List.insertionSort netRowLE (netRows rounds)).filter
          (fun row => decide (5 ≤ row.rounds)) := by
        rw [hE]
        exact List.mem_cons_self best rest
      obtain ⟨qid0, hqid0, hbest_eq⟩ := hE_mem best hbestE
      have hmin : ∀ row ∈ (List.insertionSort netRowLE (netRows rounds)).filter
            (fun row => decide (5 ≤ row.rounds)),
          best.avg_net ≤ row.avg_net := by
        intro row hrow
        have hs := hE_sorted
        rw [hE] at hs hrow
        rcases List.mem_cons.mp hrow with rfl | hr
        · exact le_refl _
        · exact lex3LE_fst_le ((List.rel_of_sorted_cons hs) row hr)
      rw [netChampions_eq]
      simp only [hE]
      rw [List.mem_map]
      constructor
      · rintro ⟨row, hrow, hpid_eq⟩
        rw [List.mem_filter] at hrow
        obtain ⟨hrowE, hrowavg⟩ := hrow
        have hrowE' : row ∈ (List.insertionSort netRowLE (netRows rounds)).filter
            (fun row => decide (5 ≤ row.rounds)) := by
          rw [hE]
          exact hrowE
        obtain ⟨rid, hrid, hrow_eq⟩ := hE_mem row hrowE'
        subst hrow_eq
        have hridpid : rid = pid := hpid_eq
        subst hridpid
        refine ⟨hrid.1, hrid.2, ?_⟩
        intro qid hq1 hq2
        have hqE := hrow_mem qid hq1 hq2
        have hle := hmin _ hqE
        have havg : (netRowOf rounds rid).avg_net = best.avg_net :=
          of_decide_eq_true hrowavg
        show (netRowOf rounds rid).avg_net ≤ (netRowOf rounds qid).avg_net
        rw [havg]
        exact hle
      · rintro ⟨h1, h2, h3⟩
        have hpidE := hrow_mem pid h1 h2
        have hle1 : best.avg_net ≤ (netRowOf rounds pid).avg_net := hmin _ hpidE
        have hle2 : (netRowOf rounds pid).avg_net ≤ best.avg_net := by
          rw [hbest_eq]
          exact h3 qid0 hqid0.1 hqid0.2
        have havg : (netRowOf rounds pid).avg_net = best.avg_net :=
          le_antisymm hle2 hle1
        refine ⟨netRowOf rounds pid, ?_, rfl⟩
        rw [List.mem_filter]
        constructor
        · rw [hE] at hpidE
          exact hpidE
        · exact decide_eq_true havg

/-- A closed league in which one player has exactly 5 scored rounds. -/
def demoNetLeague : List (List LRP) :=
  List.replicate 5 [⟨1, "Ana", some 80, some 70, some 30, some 10⟩]

/-- C6 witness: the 5-round player is a net champion of the closed demo
league. -/
theorem net_champions_characterization_witness :
    1 ∈ netChampions demoNetLeague true :=
  ((net_champions_characterization demoNetLeague (by decide)).2 1).mpr
    ⟨by decide, by decide, by
      intro qid hq _
      have hq1 : qid = 1 := by
        rw [show playersOrder demoNetLeague = [1] by decide, List.mem_singleton] at hq
        exact hq
      rw [hq1]⟩

/-- C10: a player whose summed scratch-Stableford points are 0 is omitted
from the scratch leaderboard and can never be a scratch champion; when every
listed player's scratch sum is 0, the closed league's scratch champion list
is empty. -/
theorem scratch_zero_omitted (rounds : List (List LRP)) :
    (∀ pid, scratchSum rounds pid = 0 →
      ((∀ row ∈ scratchRows rounds, row.player_id ≠ pid) ∧
        pid ∉ scratchChampions rounds true)) ∧
    ((∀ pid ∈ playersOrder rounds, scratchSum rounds pid = 0) →
      scratchChampions rounds true = []) := by
  have hperm := List.perm_insertionSort scratchRowLE (scratchRows rounds)
  constructor
  · intro pid h0
    have hrows : ∀ row ∈ scratchRows rounds, row.player_id ≠ pid := by
      intro row hrow
      rw [mem_scratchRows] at hrow
      obtain ⟨qid, _, hpos, rfl⟩ := hrow
      intro hcontra
      have hqp : qid = pid := hcontra
      rw [hqp, h0] at hpos
      exact lt_irrefl 0 hpos
    refine ⟨hrows, ?_⟩
    rcases hS : List.insertionSort scratchRowLE (scratchRows rounds) with _ | ⟨b, rest⟩
    · rw [scratchChampions_eq]
      simp only [hS]
      exact List.not_mem_nil pid
    · rw [scratchChampions_eq]
      simp only [hS]
      rw [List.mem_map]
      rintro ⟨row, hrow, hpid_eq⟩
      rw [List.mem_filter] at hrow
      have hrow' : row ∈ scratchRows rounds := by
        apply hperm.subset
        rw [hS]
        exact hrow.1
      exact hrows row hrow' hpid_eq
  · intro hall
    have hrows : scratchRows rounds = [] := by
      unfold scratchRows
      rw [List.filterMap_eq_nil_iff]
      intro pid hpid
      have h0 : ¬(0 < scratchSum rounds pid) := by
        rw [hall pid hpid]
        exact lt_irrefl 0
      rw [if_neg h0]
    rw [scratchChampions_eq, hrows]
    rfl

/-- A closed league whose only player has scratch sum 0. -/
def demoScratchLeague : List (List LRP) :=
  [[⟨1, "Ana", some 80, some 70, some 30, some 0⟩]]

/-- C10 witness: the demo league with all scratch sums 0 yields an empty
scratch champion list. -/
theorem scratch_zero_omitted_witness :
    scratchChampions demoScratchLeague true = [] :=
  (scratch_zero_omitted demoScratchLeague).2 (by decide)

end GolfStats
